import Mathlib

/-!
Verification of `convert_normals_inplace.py` (batch normal-map converter).

The script batch-converts normal-map textures between the OpenGL and DirectX
tangent-space conventions by flipping the green channel.  This file gives a
shallow embedding of the script:

* filenames are `List Char`; Python's `str.lower()` is `List.map Char.toLower`,
  Python's substring test `sub in s` is the executable `hasSub`, and
  `pathlib.Path.stem` / `.suffix` are `pathStem` / `pathSuffix`, modelled on
  CPython's implementation (`i = name.rfind('.'); 0 < i < len(name) - 1`);
* 8-bit pixels are records of natural numbers (`uint8` samples are 0..255);
* EXR float samples are modelled as exact rationals `ℚ`;
* the image codec collaborators (Pillow decode/encode, OpenCV imread/imwrite)
  are an abstract `Codec` record of oracles; a Pillow call that raises is an
  oracle returning `none` / `false`, and an uncaught Python exception is
  `Except.error`, while the EXR helper's handled failures (`return None`) are
  `Option.none` inside `Except.ok`.
-/

/-! ## Filenames, lowercasing, substring containment -/

/-- Python `str.lower()` on a filename (ASCII case folding, as all the
literals involved are ASCII). -/
def lowerName (name : List Char) : List Char := name.map Char.toLower

/-- `subAt p l` : does `p` occur as a prefix of `l`?  (Helper for the
substring test.) -/
def subAt : List Char → List Char → Bool
  | [], _ => true
  | _ :: _, [] => false
  | c :: p, d :: l => if c = d then subAt p l else false

/-- Python's substring containment `p in l`. -/
def hasSub (p : List Char) : List Char → Bool
  | [] => p.isEmpty
  | d :: l => subAt p (d :: l) || hasSub p l

/-- Index of the last occurrence of `c`, Python's `str.rfind` (`none` for -1). -/
def rfindIdx (c : Char) : List Char → Option Nat
  | [] => none
  | x :: xs =>
    match rfindIdx c xs with
    | some j => some (j + 1)
    | none => if x = c then some 0 else none

/-- `pathlib.PurePath.suffix`: the dotted extension, computed as in CPython:
`i = name.rfind('.'); name[i:] if 0 < i < len(name) - 1 else ''`. -/
def pathSuffix (name : List Char) : List Char :=
  match rfindIdx '.' name with
  | none => []
  | some i => if 0 < i ∧ i < name.length - 1 then name.drop i else []

/-- `pathlib.PurePath.stem`: `name[:i] if 0 < i < len(name) - 1 else name`. -/
def pathStem (name : List Char) : List Char :=
  match rfindIdx '.' name with
  | none => name
  | some i => if 0 < i ∧ i < name.length - 1 then name.take i else name

/-! ## Discovery filter (lines 31-35 and 119-128 of the script) -/

/-- `VALID_EXTS` of the script (line 31). -/
def VALID_EXTS : List (List Char) :=
  [".png".toList, ".jpg".toList, ".jpeg".toList, ".tga".toList,
   ".tif".toList, ".tiff".toList, ".bmp".toList, ".webp".toList,
   ".exr".toList]

/-- `looks_like_normal_map` (lines 33-35): lower-case the filename and require
both `"normal"` and `"map"` as substrings. -/
def looks_like_normal_map (filename : List Char) : Bool :=
  hasSub "normal".toList (lowerName filename) &&
    hasSub "map".toList (lowerName filename)

/-- The per-file acceptance test of `main` (lines 121 and 127):
`p.suffix.lower() in VALID_EXTS and looks_like_normal_map(name)`. -/
def acceptedFile (name : List Char) : Bool :=
  decide (lowerName (pathSuffix name) ∈ VALID_EXTS) && looks_like_normal_map name

/-- A filesystem path: the directory part plus the final component.
`Path.with_name` keeps `dir` and replaces `name`. -/
structure FPath where
  dir : String
  name : List Char
deriving DecidableEq

/-- `main`, single-file case (lines 120-122): the file alone iff accepted. -/
def discoverFile (p : FPath) : List FPath :=
  if acceptedFile p.name then [p] else []

/-- `main`, directory case (lines 123-128): `os.walk` yields the descendant
files (order unspecified); each is kept iff accepted. -/
def discoverDir (entries : List FPath) : List FPath :=
  entries.filter fun p => acceptedFile p.name

/-! ## Standard (Pillow) path: pixel model -/

/-- One pixel of the 4-channel 8-bit working buffer (`src.convert('RGBA')`,
then `np.array(img, dtype=np.uint8)`); each sample is a `uint8` value 0..255. -/
structure RGBA8 where
  r : Nat
  g : Nat
  b : Nat
  a : Nat
deriving DecidableEq

/-- The decoded source as the script observes it: `src.mode` (Pillow mode
string), whether `'transparency' in src.info`, and the pixels of
`src.convert('RGBA')`. -/
structure DecodedImage where
  mode : String
  transparencyInfo : Bool
  rgba : List RGBA8

/-- `_has_alpha_mode` (lines 37-38): `mode in ('RGBA', 'LA', 'PA')`. -/
def _has_alpha_mode (mode : String) : Bool :=
  mode = "RGBA" || mode = "LA" || mode = "PA"

/-- The green-channel flip of line 99, `arr[..., 1] = 255 - arr[..., 1]`,
on one pixel.  For `uint8` samples (`g ≤ 255`) the `numpy` subtraction is the
plain `255 - g`, which agrees with truncated `Nat` subtraction. -/
def flipG8 (px : RGBA8) : RGBA8 := { px with g := 255 - px.g }

/-- The working buffer after the flip (lines 98-99). -/
def workingBuffer (src : DecodedImage) : List RGBA8 := src.rgba.map flipG8

/-- The alpha decision of line 101:
`_has_alpha_mode(orig_mode) or ('transparency' in src.info)`. -/
def alphaPolicy (src : DecodedImage) : Bool :=
  _has_alpha_mode src.mode || src.transparencyInfo

/-- A Pillow image handed to `Image.save`: its mode string and its pixels as
per-pixel channel lists (so an `RGB` image has 3-element pixels and an `RGBA`
image 4-element pixels). -/
structure OutImage where
  mode : String
  pixels : List (List Nat)
deriving DecidableEq

/-- Lines 101-104: keep all four channels (`Image.fromarray(arr, 'RGBA')`)
when the alpha policy holds, otherwise drop alpha
(`Image.fromarray(arr[..., :3], 'RGB')`). -/
def buildOutImage (src : DecodedImage) : OutImage :=
  if alphaPolicy src then
    ⟨"RGBA", (workingBuffer src).map fun p => [p.r, p.g, p.b, p.a]⟩
  else
    ⟨"RGB", (workingBuffer src).map fun p => [p.r, p.g, p.b]⟩

/-! ## Encode options (`_save_with_params`, lines 40-52) -/

/-- The keyword arguments passed to `Image.save`. -/
structure SaveParams where
  quality : Option Nat
  subsampling : Option Nat
  optimize : Bool
  compression : Option String
deriving DecidableEq

/-- Empty `params` dict: `img.save(path)` with no special options. -/
def noParams : SaveParams := ⟨none, none, false, none⟩

/-- `quality=95, subsampling=1, optimize=True` (line 46). -/
def jpegParams : SaveParams := ⟨some 95, some 1, true, none⟩

/-- `compression='tiff_lzw'` (line 51). -/
def tiffParams : SaveParams := ⟨none, none, false, some "tiff_lzw"⟩

/-- Pillow `convert('RGB')` on an already-RGB/RGBA image: drop alpha. -/
def toRGBImage (img : OutImage) : OutImage :=
  ⟨"RGB", img.pixels.map fun p => p.take 3⟩

/-- Pillow `convert('RGBA')`: add an opaque alpha channel. -/
def toRGBAImage (img : OutImage) : OutImage :=
  ⟨"RGBA", img.pixels.map fun p => p.take 3 ++ [255]⟩

/-- The image/params pair that `_save_with_params` hands to the single
`img.save(path, **params)` call (lines 41-52), keyed on the lower-cased
output extension. -/
def savePlan (img : OutImage) (outName : List Char) (origMode : String) :
    OutImage × SaveParams :=
  let ext := lowerName (pathSuffix outName)
  if ext = ".jpg".toList ∨ ext = ".jpeg".toList then
    ((if img.mode ≠ "RGB" then toRGBImage img else img), jpegParams)
  else if ext = ".tga".toList then
    ((if img.mode ≠ "RGB" ∧ img.mode ≠ "RGBA" then
        (if _has_alpha_mode origMode then toRGBAImage img else toRGBImage img)
      else img), noParams)
  else if ext = ".tif".toList ∨ ext = ".tiff".toList then (img, tiffParams)
  else (img, noParams)

/-! ## EXR (OpenCV) path -/

/-- An OpenCV float image: `ndim`, the channel count `arr.shape[2]`, and the
pixels in native BGR(A) channel order; float32 samples are modelled as exact
rationals. -/
structure ExrImage where
  ndim : Nat
  nchan : Nat
  pixels : List (List ℚ)

/-- `np.clip(x, 0.0, 1.0)` (line 77). -/
def clamp01 (x : ℚ) : ℚ := max 0 (min 1 x)

/-- The green-sample transform of lines 71-77: signed-range branch
`G = -((G * 2.0) - 1.0); G = (G * 0.5) + 0.5` when `exr_negpos`, else
`G = 1.0 - G`; then `np.clip(G, 0.0, 1.0)`. -/
def exrFlipG (negpos : Bool) (g : ℚ) : ℚ :=
  clamp01 (if negpos then (-((g * 2) - 1)) * (1/2) + 1/2 else 1 - g)

/-- Lines 69 and 78 on one pixel: read channel 1 (`arr[:, :, 1]`), transform
it, write it back into channel 1 (`arr[:, :, 1] = G`). -/
def exrFlipPixel (negpos : Bool) (px : List ℚ) : List ℚ :=
  px.set 1 (exrFlipG negpos (px.getD 1 0))

/-- The whole-buffer transform of `_process_exr_cv2` (lines 69-78). -/
def exrTransform (negpos : Bool) (img : ExrImage) : ExrImage :=
  { img with pixels := img.pixels.map (exrFlipPixel negpos) }

/-! ## Collaborating codecs and the per-file pipeline -/

/-- The external codec collaborators.  `pilDecode p = none` models
`Image.open` raising; `pilSave img p params = false` models `img.save`
raising; `cv2Read p = none` models `cv2.imread` returning `None`;
`cv2WriteOk` is the boolean result of `cv2.imwrite`. -/
structure Codec where
  cv2Available : Bool
  cv2Read : FPath → Option ExrImage
  cv2WriteOk : FPath → ExrImage → Bool
  pilDecode : FPath → Option DecodedImage
  pilSave : OutImage → FPath → SaveParams → Bool

/-- `_save_with_params` (lines 40-52): build the plan and call `img.save`
exactly once.  The second component records the encode attempts actually
made (image/params pairs), the first whether the single call succeeded. -/
def _save_with_params (codec : Codec) (img : OutImage) (path : FPath)
    (origMode : String) : Bool × List (OutImage × SaveParams) :=
  let plan := savePlan img path.name origMode
  (codec.pilSave plan.1 path plan.2, [plan])

/-- `_process_exr_cv2` (lines 54-84): every failure is handled and returned
as `None`; on success `cv2.imwrite` is called on the transformed buffer at
`path_out` and `path_out` is returned. -/
def _process_exr_cv2 (codec : Codec) (pIn pOut : FPath) (negpos : Bool) :
    Option FPath :=
  if codec.cv2Available = false then none
  else
    match codec.cv2Read pIn with
    | none => none
    | some arr =>
      if arr.ndim ≠ 3 ∨ arr.nchan < 3 then none
      else if codec.cv2WriteOk pOut (exrTransform negpos arr) then some pOut
      else none

/-- Lines 87-89: `out_path = path_in.with_name(path_in.stem + suffix +
path_in.suffix)`. -/
def outPathOf (p : FPath) (sfx : List Char) : FPath :=
  ⟨p.dir, pathStem p.name ++ sfx ++ pathSuffix p.name⟩

/-- `convert_image_inplace` (lines 86-107).  `Except.error` models an
uncaught Python exception (Pillow decode or encode raising); `Except.ok
none` is the EXR path's handled per-file failure; `Except.ok (some out)` is
success. -/
def convert_image_inplace (codec : Codec) (p : FPath) (sfx : List Char)
    (negpos : Bool) : Except String (Option FPath) :=
  let ext := lowerName (pathSuffix p.name)
  let outp := outPathOf p sfx
  if ext = ".exr".toList then
    Except.ok (_process_exr_cv2 codec p outp negpos)
  else
    match codec.pilDecode p with
    | none => Except.error "decode raised"
    | some src =>
      let outImg := buildOutImage src
      if (_save_with_params codec outImg outp src.mode).1 then
        Except.ok (some outp)
      else Except.error "encode raised"

/-- `true` iff the per-file conversion raised (aborting the batch). -/
def isErr : Except String (Option FPath) → Bool
  | Except.error _ => true
  | Except.ok _ => false

/-- Outcome of the `for f in files` loop of `main` (lines 134-140):
which files the pipeline was invoked on, the (input, output) pairs
reported, and whether an uncaught exception aborted the loop. -/
structure BatchResult where
  invoked : List FPath
  outputs : List (FPath × FPath)
  aborted : Bool
deriving DecidableEq

/-- The `main` loop (lines 134-140): an `Except.error` propagates and stops
the iteration; `None` results are skipped (`continue`); successes are
reported. -/
def mainLoop (codec : Codec) (sfx : List Char) (negpos : Bool) :
    List FPath → BatchResult
  | [] => ⟨[], [], false⟩
  | f :: rest =>
    match convert_image_inplace codec f sfx negpos with
    | Except.error _ => ⟨[f], [], true⟩
    | Except.ok none =>
      let r := mainLoop codec sfx negpos rest
      ⟨f :: r.invoked, r.outputs, r.aborted⟩
    | Except.ok (some q) =>
      let r := mainLoop codec sfx negpos rest
      ⟨f :: r.invoked, (f, q) :: r.outputs, r.aborted⟩

/-! ## Filesystem effect of one write -/

/-- A filesystem: contents (abstracted to a `Nat`) at each path. -/
def FSys : Type := FPath → Option Nat

/-- Writing `content` at `target`: the write target gets the new contents,
every other path is untouched (a pre-existing file at `target` is silently
overwritten). -/
def writeFS (fs : FSys) (target : FPath) (content : Nat) : FSys :=
  fun q => if q = target then some content else fs q

/-! ## Concrete fixtures used by witnesses and counterexamples -/

/-- A matching input file at the filesystem root. -/
def pRock : FPath := ⟨"", "rock_normal_map.png".toList⟩

/-- A one-file filesystem: contents `7` at `pRock`. -/
def fs0 : FSys := fun q => if q = pRock then some 7 else none

/-- A grayscale source: Pillow mode `L`, no transparency marker, one pixel. -/
def srcL : DecodedImage := ⟨"L", false, [⟨9, 9, 9, 255⟩]⟩

/-- An RGBA source with a non-opaque alpha value. -/
def srcRGBA : DecodedImage := ⟨"RGBA", false, [⟨128, 200, 64, 137⟩]⟩

/-- A codec on which every Pillow and OpenCV operation fails. -/
def codecAllFail : Codec :=
  ⟨true, fun _ => none, fun _ _ => false, fun _ => none, fun _ _ _ => false⟩

/-- A codec without OpenCV (`import cv2` failed): `_HAS_CV2 = False`. -/
def codecNoCv2 : Codec :=
  ⟨false, fun _ => none, fun _ _ => false, fun _ => none, fun _ _ _ => false⟩

/-- A codec whose encoder accepts exactly the optionless `img.save(path)`
call and rejects every format-specific option set. -/
def codecOnlyPlainSave : Codec :=
  ⟨false, fun _ => none, fun _ _ => false, fun _ => none,
   fun _ _ params => params = noParams⟩

/-- Two standard-format (PNG) inputs. -/
def pngA : FPath := ⟨"", "a_normal_map.png".toList⟩

/-- Second PNG input, discovered after `pngA`. -/
def pngB : FPath := ⟨"", "b_normal_map.png".toList⟩

/-- Two EXR inputs. -/
def exrA : FPath := ⟨"", "a_normal_map.exr".toList⟩

/-- Second EXR input. -/
def exrB : FPath := ⟨"", "b_normal_map.exr".toList⟩

/-- A JPEG output target and an RGB image for it. -/
def jpgPath : FPath := ⟨"", "n_normal_map_DX.jpg".toList⟩

/-- The RGB image to be encoded at `jpgPath`. -/
def jpgImg : OutImage := ⟨"RGB", [[10, 20, 30]]⟩

/-- A small 8-bit buffer. -/
def buf0 : List RGBA8 := [⟨1, 2, 3, 4⟩, ⟨255, 0, 255, 137⟩]

/-- A small EXR buffer: one BGRA pixel. -/
def exrImg0 : ExrImage := ⟨3, 4, [[1/4, 3/4, 1/2, 1]]⟩

/-! ## Helper lemmas: substring containment -/

/-- The empty pattern occurs in every string. -/
theorem hasSub_nil_left (l : List Char) : hasSub [] l = true := by
  cases l with
  | nil => rfl
  | cons d l => simp [hasSub, subAt]

/-- A pattern occurring at the front survives appending on the right. -/
theorem subAt_append_right (p a b : List Char) (h : subAt p a = true) :
    subAt p (a ++ b) = true := by
  induction p generalizing a with
  | nil => rfl
  | cons c p ih =>
    cases a with
    | nil => simp [subAt] at h
    | cons d a =>
      simp only [subAt, List.cons_append] at h ⊢
      by_cases hcd : c = d
      · rw [if_pos hcd] at h ⊢
        exact ih a h
      · rw [if_neg hcd] at h
        exact absurd h (by simp)

/-- A substring of `a` is a substring of `a ++ b`. -/
theorem hasSub_append_right (p a b : List Char) (h : hasSub p a = true) :
    hasSub p (a ++ b) = true := by
  induction a with
  | nil =>
    have hp : p = [] := by
      cases p with
      | nil => rfl
      | cons c p => simp [hasSub, List.isEmpty] at h
    subst hp
    exact hasSub_nil_left b
  | cons d a ih =>
    simp only [hasSub, Bool.or_eq_true, List.cons_append] at h ⊢
    cases h with
    | inl h => exact Or.inl (subAt_append_right p (d :: a) b h)
    | inr h => exact Or.inr (ih h)

/-- If `p` avoids the character `c` and occurs at the front of `a ++ c :: u`,
it already occurs at the front of `a` (it cannot run past the `c`). -/
theorem subAt_of_append_cons (c : Char) (p : List Char) :
    ∀ a u : List Char, c ∉ p → subAt p (a ++ c :: u) = true →
      subAt p a = true := by
  induction p with
  | nil => intro a u _ _; rfl
  | cons d p ih =>
    intro a u hc h
    cases a with
    | nil =>
      simp only [List.nil_append, subAt] at h
      by_cases hdc : d = c
      · exact absurd (hdc ▸ List.mem_cons_self d p) hc
      · rw [if_neg hdc] at h
        exact absurd h (by simp)
    | cons x a2 =>
      simp only [subAt, List.cons_append] at h ⊢
      by_cases hdx : d = x
      · rw [if_pos hdx] at h ⊢
        exact ih a2 u (fun hm => hc (List.mem_cons_of_mem d hm)) h
      · rw [if_neg hdx] at h
        exact absurd h (by simp)

/-- Occurrence decomposition: a pattern avoiding `c` that occurs in
`a ++ c :: u` occurs entirely inside `a` or entirely inside `c :: u`:
it cannot straddle the boundary marked by `c`. -/
theorem hasSub_of_append_cons (c : Char) (p a u : List Char) (hc : c ∉ p)
    (h : hasSub p (a ++ c :: u) = true) :
    hasSub p a = true ∨ hasSub p (c :: u) = true := by
  induction a with
  | nil => exact Or.inr h
  | cons x a2 ih =>
    have h2 : subAt p (x :: (a2 ++ c :: u)) = true ∨
        hasSub p (a2 ++ c :: u) = true := by
      simpa [hasSub, Bool.or_eq_true] using h
    cases h2 with
    | inl h2 =>
      left
      have hx : subAt p (x :: a2) = true :=
        subAt_of_append_cons c p (x :: a2) u hc (by simpa using h2)
      simp [hasSub, hx]
    | inr h2 =>
      cases ih h2 with
      | inl h3 =>
        left
        simp [hasSub, h3]
      | inr h3 => exact Or.inr h3

/-! ## Helper lemmas: `rfindIdx` and the stem/suffix split -/

/-- `rfind` misses a character that does not occur. -/
theorem rfindIdx_eq_none (c : Char) (l : List Char) (h : c ∉ l) :
    rfindIdx c l = none := by
  induction l with
  | nil => rfl
  | cons x xs ih =>
    have hx : ¬x = c := fun hxc => h (by rw [hxc]; exact List.mem_cons_self c xs)
    have hxs : c ∉ xs := fun hm => h (List.mem_cons_of_mem x hm)
    simp [rfindIdx, ih hxs, hx]

/-- `rfind` finding nothing means the character does not occur. -/
theorem notMem_of_rfindIdx_none (c : Char) (l : List Char)
    (h : rfindIdx c l = none) : c ∉ l := by
  induction l with
  | nil => simp
  | cons x xs ih =>
    simp only [rfindIdx] at h
    cases hr : rfindIdx c xs with
    | some j => rw [hr] at h; exact absurd h (by simp)
    | none =>
      rw [hr] at h
      by_cases hxc : x = c
      · rw [if_pos hxc] at h; exact absurd h (by simp)
      · intro hm
        cases List.mem_cons.mp hm with
        | inl h2 => exact hxc h2.symm
        | inr h2 => exact ih hr h2

/-- What `rfind` returns really is the last occurrence: the list at that
index holds `c`, and `c` does not occur further right. -/
theorem rfindIdx_spec (c : Char) (l : List Char) :
    ∀ i : Nat, rfindIdx c l = some i →
      i < l.length ∧ l.drop i = c :: l.drop (i + 1) ∧ c ∉ l.drop (i + 1) := by
  induction l with
  | nil => intro i h; exact absurd h (by simp [rfindIdx])
  | cons x xs ih =>
    intro i h
    simp only [rfindIdx] at h
    cases hr : rfindIdx c xs with
    | some j =>
      rw [hr] at h
      have hi : j + 1 = i := Option.some.inj h
      obtain ⟨hlt, hdrop, hnot⟩ := ih j hr
      subst hi
      refine ⟨by simp; omega, ?_, ?_⟩
      · simpa using hdrop
      · simpa using hnot
    | none =>
      rw [hr] at h
      by_cases hxc : x = c
      · rw [if_pos hxc] at h
        have hi : i = 0 := (Option.some.inj h).symm
        subst hi
        exact ⟨Nat.succ_pos _, by simp [hxc],
          by simpa using notMem_of_rfindIdx_none c xs hr⟩
      · rw [if_neg hxc] at h
        exact absurd h (by simp)

/-- `rfind` on an extended list shifts by the length of the extension. -/
theorem rfindIdx_append (c : Char) (a l : List Char) (j : Nat)
    (h : rfindIdx c l = some j) :
    rfindIdx c (a ++ l) = some (a.length + j) := by
  induction a with
  | nil => simpa using h
  | cons x a2 ih =>
    show rfindIdx c (x :: (a2 ++ l)) = some ((x :: a2).length + j)
    simp only [rfindIdx, ih]
    simp [List.length_cons]
    omega

/-- The stem and the suffix partition the filename. -/
theorem pathStem_append_pathSuffix (name : List Char) :
    pathStem name ++ pathSuffix name = name := by
  cases hr : rfindIdx '.' name with
  | none => simp [pathStem, pathSuffix, hr]
  | some i =>
    by_cases hc : 0 < i ∧ i < name.length - 1
    · simp only [pathStem, pathSuffix, hr, if_pos hc]
      exact List.take_append_drop i name
    · simp [pathStem, pathSuffix, hr, hc]

/-- A filename with a nonempty suffix splits as `stem ++ '.' :: tail` with a
nonempty stem, a nonempty tail, and no further dot in the tail. -/
theorem pathSplit (name : List Char) (h : pathSuffix name ≠ []) :
    ∃ s t, name = s ++ '.' :: t ∧ pathStem name = s ∧
      pathSuffix name = '.' :: t ∧ s ≠ [] ∧ t ≠ [] ∧ '.' ∉ t := by
  cases hr : rfindIdx '.' name with
  | none => exact absurd (by simp [pathSuffix, hr]) h
  | some i =>
    by_cases hc : 0 < i ∧ i < name.length - 1
    · obtain ⟨hlt, hdrop, hnot⟩ := rfindIdx_spec '.' name i hr
      refine ⟨name.take i, name.drop (i + 1), ?_, ?_, ?_, ?_, ?_, hnot⟩
      · conv_lhs => rw [← List.take_append_drop i name]
        rw [hdrop]
      · simp [pathStem, hr, hc]
      · simp [pathSuffix, hr, hc, hdrop]
      · intro hnil
        have hlen := congrArg List.length hnil
        rw [List.length_take, List.length_nil] at hlen
        rcases Nat.min_eq_zero_iff.mp hlen with h0 | h0 <;> omega
      · intro hnil
        have hlen := congrArg List.length hnil
        rw [List.length_drop, List.length_nil] at hlen
        omega
    · exact absurd (by simp [pathSuffix, hr, hc]) h

/-- Conversely, on a name of the shape `s ++ '.' :: t` (nonempty `s` and
`t`, no dot in `t`) the suffix is `'.' :: t` and the stem is `s`. -/
theorem pathSuffix_concrete (s t : List Char) (hs : s ≠ []) (ht : t ≠ [])
    (hnot : '.' ∉ t) :
    pathSuffix (s ++ '.' :: t) = '.' :: t ∧ pathStem (s ++ '.' :: t) = s := by
  have h0 : rfindIdx '.' ('.' :: t) = some 0 := by
    simp [rfindIdx, rfindIdx_eq_none '.' t hnot]
  have hr := rfindIdx_append '.' s ('.' :: t) 0 h0
  have hslen : 0 < s.length := List.length_pos.mpr hs
  have htlen : 0 < t.length := List.length_pos.mpr ht
  have hc : 0 < s.length + 0 ∧ s.length + 0 < (s ++ '.' :: t).length - 1 := by
    simp [List.length_append]
    omega
  constructor
  · simp only [pathSuffix, hr, if_pos hc]
    simp
  · simp only [pathStem, hr, if_pos hc]
    simp

/-! ## Helper lemmas: EXR transform and pipeline plumbing -/

/-- Clamping is the identity on `[0, 1]`. -/
theorem clamp01_eq (x : ℚ) (h0 : 0 ≤ x) (h1 : x ≤ 1) : clamp01 x = x := by
  unfold clamp01
  rw [min_eq_right h1, max_eq_right h0]

/-- The two branch formulas of lines 71-75 agree: the signed-range
composite collapses to `1 - g`. -/
theorem exrFlipG_eq (b : Bool) (g : ℚ) : exrFlipG b g = clamp01 (1 - g) := by
  cases b with
  | false => rfl
  | true =>
    show clamp01 ((-((g * 2) - 1)) * (1/2) + 1/2) = clamp01 (1 - g)
    exact congrArg clamp01 (by ring)

/-- `_process_exr_cv2` only ever returns the output path it was given. -/
theorem _process_exr_out (codec : Codec) (pIn pOut : FPath) (negpos : Bool)
    (q : FPath) (h : _process_exr_cv2 codec pIn pOut negpos = some q) :
    q = pOut := by
  unfold _process_exr_cv2 at h
  split at h
  · exact absurd h (by simp)
  · split at h
    · exact absurd h (by simp)
    · split at h
      · exact absurd h (by simp)
      · split at h
        · exact (Option.some.inj h).symm
        · exact absurd h (by simp)

/-- When the pipeline succeeds it reports exactly the computed output path. -/
theorem convert_ok_some (codec : Codec) (p : FPath) (sfx : List Char)
    (negpos : Bool) (q : FPath)
    (h : convert_image_inplace codec p sfx negpos = Except.ok (some q)) :
    q = outPathOf p sfx := by
  simp only [convert_image_inplace] at h
  split at h
  · exact _process_exr_out codec p (outPathOf p sfx) negpos q (Except.ok.inj h)
  · split at h
    · exact Except.noConfusion h
    · split at h
      · exact (Option.some.inj (Except.ok.inj h)).symm
      · exact Except.noConfusion h

/-! ## Claim theorems -/

/-- C5: the standard-path green flip replaces each green sample `g` (0..255)
by `255 - g` elementwise with no clamping, and applying the flip twice over
the whole 8-bit working buffer returns the exact original values
(`255 - (255 - g) = g` for all `g ≤ 255`). -/
theorem C5_flip8_involution (buf : List RGBA8) (h : ∀ px ∈ buf, px.g ≤ 255) :
    (buf.map flipG8).map flipG8 = buf ∧
      ∀ px ∈ buf, (flipG8 px).g = 255 - px.g ∧ flipG8 (flipG8 px) = px := by
  have hpx : ∀ px : RGBA8, px.g ≤ 255 → flipG8 (flipG8 px) = px := by
    intro px hg
    obtain ⟨r, g, b, a⟩ := px
    simp only [flipG8]
    simp at hg ⊢
    omega
  constructor
  · induction buf with
    | nil => rfl
    | cons px rest ih =>
      rw [List.map_cons, List.map_cons,
        hpx px (h px (List.mem_cons_self px rest)),
        ih fun q hq => h q (List.mem_cons_of_mem px hq)]
  · intro px hmem
    exact ⟨rfl, hpx px (h px hmem)⟩

/-- Witness for C5 at a concrete two-pixel buffer. -/
theorem C5_flip8_involution_witness : (buf0.map flipG8).map flipG8 = buf0 :=
  (C5_flip8_involution buf0 (by decide)).1

/-- C6: the two EXR green transforms (unsigned `1 - g` and signed
`-((g*2) - 1) * 0.5 + 0.5`, each clamped to `[0,1]`) agree on every green
value; both send a stored `0.75` to `0.25`; and each is an involution on
`[0, 1]`. -/
theorem C6_exr_formulas :
    (∀ g : ℚ, exrFlipG true g = exrFlipG false g) ∧
      exrFlipG false (3/4) = 1/4 ∧ exrFlipG true (3/4) = 1/4 ∧
      ∀ (b : Bool) (g : ℚ), 0 ≤ g → g ≤ 1 → exrFlipG b (exrFlipG b g) = g := by
  refine ⟨fun g => by rw [exrFlipG_eq, exrFlipG_eq], ?_, ?_, ?_⟩
  · rw [exrFlipG_eq, clamp01_eq (1 - 3/4) (by norm_num) (by norm_num)]
    norm_num
  · rw [exrFlipG_eq, clamp01_eq (1 - 3/4) (by norm_num) (by norm_num)]
    norm_num
  · intro b g h0 h1
    rw [exrFlipG_eq, exrFlipG_eq,
      clamp01_eq (1 - g) (by linarith) (by linarith),
      clamp01_eq (1 - (1 - g)) (by linarith) (by linarith)]
    ring

/-- Witness for C6: the signed-range transform is an involution at `3/4`. -/
theorem C6_exr_formulas_witness :
    exrFlipG true (exrFlipG true (3/4)) = 3/4 :=
  C6_exr_formulas.2.2.2 true (3/4) (by norm_num) (by norm_num)

/-- C7: both paths modify only the green channel (index 1).  On the EXR path
every channel plane other than index 1 (blue, red, alpha when present) of the
transformed buffer equals the decoded input's; on the standard path the flip
leaves red, blue and alpha of every pixel untouched, and when alpha is kept
the output's alpha channel equals the source's alpha byte for byte. -/
theorem C7_only_green_changes :
    (∀ (negpos : Bool) (img : ExrImage) (i : Nat), i ≠ 1 →
      (exrTransform negpos img).pixels.map (fun px => px[i]?) =
        img.pixels.map fun px => px[i]?) ∧
    (∀ (negpos : Bool) (px : List ℚ) (i : Nat), i ≠ 1 →
      (exrFlipPixel negpos px)[i]? = px[i]?) ∧
    (∀ px : RGBA8, (flipG8 px).r = px.r ∧ (flipG8 px).b = px.b ∧
      (flipG8 px).a = px.a) ∧
    (∀ src : DecodedImage, alphaPolicy src = true →
      (buildOutImage src).pixels.map (fun p => p.getD 3 0) =
        src.rgba.map RGBA8.a) := by
  have hpx : ∀ (negpos : Bool) (px : List ℚ) (i : Nat), i ≠ 1 →
      (exrFlipPixel negpos px)[i]? = px[i]? := by
    intro negpos px i hi
    unfold exrFlipPixel
    exact List.getElem?_set_ne fun h => hi h.symm
  refine ⟨?_, hpx, ?_, ?_⟩
  · intro negpos img i hi
    unfold exrTransform
    simp only [List.map_map]
    exact List.map_congr_left fun px _ => hpx negpos px i hi
  · intro px
    obtain ⟨r, g, b, a⟩ := px
    exact ⟨rfl, rfl, rfl⟩
  · intro src hpol
    simp only [buildOutImage, hpol, if_pos, workingBuffer, List.map_map]
    exact List.map_congr_left fun px _ => rfl

/-- Witness for C7 at the blue plane (index 0) of a concrete EXR buffer. -/
theorem C7_only_green_changes_witness :
    (exrTransform false exrImg0).pixels.map (fun px => px[0]?) =
      exrImg0.pixels.map fun px => px[0]? :=
  C7_only_green_changes.1 false exrImg0 0 (by decide)

/-- C8: the buffer handed to the encode policy carries alpha (mode `RGBA`)
iff the source's native mode carries alpha or the source declares a
transparency side-channel; without either the output has 3-channel pixels,
with either it has 4-channel pixels. -/
theorem C8_alpha_policy (src : DecodedImage) :
    ((buildOutImage src).mode = "RGBA" ↔
      (_has_alpha_mode src.mode || src.transparencyInfo) = true) ∧
    ((_has_alpha_mode src.mode || src.transparencyInfo) = false →
      ∀ px ∈ (buildOutImage src).pixels, px.length = 3) ∧
    ((_has_alpha_mode src.mode || src.transparencyInfo) = true →
      ∀ px ∈ (buildOutImage src).pixels, px.length = 4) := by
  have hap : alphaPolicy src = (_has_alpha_mode src.mode || src.transparencyInfo) :=
    rfl
  rw [← hap]
  cases h : alphaPolicy src with
  | false =>
    refine ⟨by simp [buildOutImage, h], ?_, ?_⟩
    · intro _ px hpx
      simp only [buildOutImage, h] at hpx
      simp only [Bool.false_eq_true, if_neg] at hpx
      obtain ⟨q, _, rfl⟩ := List.mem_map.mp hpx
      rfl
    · intro habs
      exact absurd habs (by simp)
  | true =>
    refine ⟨by simp [buildOutImage, h], ?_, ?_⟩
    · intro habs
      exact absurd habs (by simp)
    · intro _ px hpx
      simp only [buildOutImage, h, if_pos] at hpx
      obtain ⟨q, _, rfl⟩ := List.mem_map.mp hpx
      rfl

/-- Witness for C8: the grayscale source without transparency yields a
3-channel pixel. -/
theorem C8_alpha_policy_witness : ([(9 : Nat), 246, 9] : List Nat).length = 3 :=
  (C8_alpha_policy srcL).2.1 (by decide) [9, 246, 9] (by decide)

/-- C2 counterexample: with a codec that rejects the JPEG options but would
accept an optionless encode, `_save_with_params` reports a final failure
after exactly one attempt — the one carrying the format-specific options —
so no retry without options ever happens. -/
theorem C2_counterexample :
    (_save_with_params codecOnlyPlainSave jpgImg jpgPath "RGB").1 = false ∧
    (_save_with_params codecOnlyPlainSave jpgImg jpgPath "RGB").2 =
      [(jpgImg, jpegParams)] ∧
    codecOnlyPlainSave.pilSave jpgImg jpgPath noParams = true := by
  refine ⟨by decide, by decide, by decide⟩

/-- C2 (amended): the standard path makes exactly one encode attempt, with
the format-specific options of `savePlan`; a failure of that single
`img.save` call is immediately a final failure (an uncaught exception), with
no optionless retry. -/
theorem C2_single_encode_attempt (codec : Codec) (img : OutImage)
    (path : FPath) (m : String) :
    (_save_with_params codec img path m).2 = [savePlan img path.name m] ∧
    (_save_with_params codec img path m).1 =
      codec.pilSave (savePlan img path.name m).1 path
        (savePlan img path.name m).2 :=
  ⟨rfl, rfl⟩

/-- C3 counterexample: a grayscale source (Pillow mode `L`) is written in
mode `RGB`, not in its original pixel format. -/
theorem C3_counterexample :
    (buildOutImage srcL).mode = "RGB" ∧ srcL.mode = "L" ∧
      (buildOutImage srcL).mode ≠ srcL.mode := by
  refine ⟨by decide, by decide, by decide⟩

/-- C3 (amended): the output's pixel mode is not the input's original mode
in general; it is `RGBA` when the alpha policy holds and `RGB` otherwise
(so alpha presence — not the full channel layout — is what is preserved). -/
theorem C3_mode_from_policy (src : DecodedImage) :
    (buildOutImage src).mode = (if alphaPolicy src then "RGBA" else "RGB") ∧
      ((buildOutImage src).mode = "RGBA" ↔ alphaPolicy src = true) := by
  cases h : alphaPolicy src with
  | false =>
    constructor
    · simp [buildOutImage, h]
    · simp only [buildOutImage, h]
      simp
  | true =>
    constructor
    · simp [buildOutImage, h]
    · simp [buildOutImage, h]

/-- C4 counterexample: with the empty suffix the computed output path *is*
the input path, and the encode overwrites the original file's contents
(here `7` becomes `9`) — so "never modifies the original, for every suffix
string" fails. -/
theorem C4_counterexample :
    outPathOf pRock [] = pRock ∧
    writeFS fs0 (outPathOf pRock []) 9 pRock = some 9 ∧
    fs0 pRock = some 7 := by
  refine ⟨by decide, by decide, by decide⟩

/-- C4 (amended): the conversion writes only to
`outputPath = dir(input) / (stem + suffix + originalExtension)` — any path
the pipeline reports on success is that path — and whenever the suffix is
nonempty the output path differs from the input path, so a write there
leaves the input file's contents unchanged. -/
theorem C4_output_path (p : FPath) (sfx : List Char) (h : sfx ≠ []) :
    outPathOf p sfx ≠ p ∧
    (∀ (fs : FSys) (c : Nat), writeFS fs (outPathOf p sfx) c p = fs p) ∧
    (outPathOf p sfx).dir = p.dir ∧
    (outPathOf p sfx).name = pathStem p.name ++ sfx ++ pathSuffix p.name ∧
    ∀ (codec : Codec) (negpos : Bool) (q : FPath),
      convert_image_inplace codec p sfx negpos = Except.ok (some q) →
      q = outPathOf p sfx := by
  have hne : outPathOf p sfx ≠ p := by
    intro he
    have hname : pathStem p.name ++ sfx ++ pathSuffix p.name = p.name :=
      congrArg FPath.name he
    have hlen := congrArg List.length hname
    have hsplit := congrArg List.length (pathStem_append_pathSuffix p.name)
    simp only [List.length_append] at hlen hsplit
    have hz : sfx.length = 0 := by omega
    exact h (List.length_eq_zero.mp hz)
  refine ⟨hne, ?_, rfl, rfl, ?_⟩
  · intro fs c
    unfold writeFS
    rw [if_neg fun hq : p = outPathOf p sfx => hne hq.symm]
  · intro codec negpos q hc
    exact convert_ok_some codec p sfx negpos q hc

/-- Witness for C4 at the concrete input `rock_normal_map.png` with the
default suffix `_DX`. -/
theorem C4_output_path_witness :
    outPathOf pRock "_DX".toList ≠ pRock ∧
    writeFS fs0 (outPathOf pRock "_DX".toList) 9 pRock = fs0 pRock := by
  have h := C4_output_path pRock "_DX".toList (by decide)
  exact ⟨h.1, h.2.1 fs0 9⟩

/-- C1 counterexample: two discovered PNG files on a codec whose Pillow
decode raises.  The first file's decode failure is an uncaught exception:
the batch aborts, the pipeline is invoked on the first file only, and the
second discovered file is never processed — so a per-file failure *can*
abort processing of the remaining files. -/
theorem C1_counterexample :
    (mainLoop codecAllFail "_DX".toList false [pngA, pngB]).invoked = [pngA] ∧
    (mainLoop codecAllFail "_DX".toList false [pngA, pngB]).aborted = true ∧
    (mainLoop codecAllFail "_DX".toList false [pngA, pngB]).invoked ≠
      [pngA, pngB] := by
  refine ⟨by decide, by decide, by decide⟩

/-- C1 (amended): failures on the EXR path are handled per file (`None`
return) and never abort the batch, and a failing file contributes no output;
but only when no file raises an uncaught exception — i.e. when every failure
is an EXR-path failure — is the pipeline invoked once per discovered path.
A standard-path decode or encode failure raises and aborts the remaining
files (see the counterexample). -/
theorem C1_failure_scope (codec : Codec) (sfx : List Char) (negpos : Bool)
    (files : List FPath)
    (h : ∀ f ∈ files, isErr (convert_image_inplace codec f sfx negpos) = false) :
    (mainLoop codec sfx negpos files).invoked = files ∧
    (mainLoop codec sfx negpos files).aborted = false ∧
    ∀ f q, (f, q) ∈ (mainLoop codec sfx negpos files).outputs →
      convert_image_inplace codec f sfx negpos = Except.ok (some q) := by
  induction files with
  | nil =>
    refine ⟨rfl, rfl, ?_⟩
    intro f q hm
    exact absurd hm (by simp [mainLoop])
  | cons f rest ih =>
    have hf := h f (List.mem_cons_self f rest)
    have hrest : ∀ g ∈ rest,
        isErr (convert_image_inplace codec g sfx negpos) = false :=
      fun g hg => h g (List.mem_cons_of_mem f hg)
    obtain ⟨ih1, ih2, ih3⟩ := ih hrest
    cases hc : convert_image_inplace codec f sfx negpos with
    | error e =>
      rw [hc] at hf
      exact absurd hf (by simp [isErr])
    | ok o =>
      cases o with
      | none =>
        refine ⟨?_, ?_, ?_⟩
        · simp only [mainLoop, hc]
          rw [ih1]
        · simp only [mainLoop, hc]
          exact ih2
        · intro g q hm
          simp only [mainLoop, hc] at hm
          exact ih3 g q hm
      | some out =>
        refine ⟨?_, ?_, ?_⟩
        · simp only [mainLoop, hc]
          rw [ih1]
        · simp only [mainLoop, hc]
          exact ih2
        · intro g q hm
          simp only [mainLoop, hc] at hm
          cases List.mem_cons.mp hm with
          | inl heq =>
            obtain ⟨hg, hq⟩ := Prod.mk.injEq .. ▸ heq
            subst hg
            subst hq
            exact hc
          | inr htail => exact ih3 g q htail

/-- Witness for C1: two EXR files on a codec without OpenCV — both fail,
both are skipped per file, the batch is not aborted, both files are
invoked, and neither contributes an output. -/
theorem C1_failure_scope_witness :
    (mainLoop codecNoCv2 "_DX".toList false [exrA, exrB]).invoked =
      [exrA, exrB] ∧
    (mainLoop codecNoCv2 "_DX".toList false [exrA, exrB]).aborted = false := by
  have h := C1_failure_scope codecNoCv2 "_DX".toList false [exrA, exrB]
    (by decide)
  exact ⟨h.1, h.2.1⟩

/-- C9: discovery yields exactly the files whose lower-cased filename
contains both `"normal"` and `"map"` and whose lower-cased dotted extension
is in the allow-list — both for a single-file root and for every file found
by directory traversal — it yields the empty sequence (never an error) when
nothing matches, and the four example names behave as the spec says. -/
theorem C9_discovery :
    (∀ p q : FPath, q ∈ discoverFile p ↔ (q = p ∧ acceptedFile p.name = true)) ∧
    (∀ (es : List FPath) (q : FPath),
      q ∈ discoverDir es ↔ (q ∈ es ∧ acceptedFile q.name = true)) ∧
    (∀ name : List Char, acceptedFile name = true ↔
      (lowerName (pathSuffix name) ∈ VALID_EXTS ∧
        hasSub "normal".toList (lowerName name) = true ∧
        hasSub "map".toList (lowerName name) = true)) ∧
    acceptedFile "rock_NORMAL_Map.png".toList = true ∧
    acceptedFile "rock_normalmap.tga".toList = true ∧
    acceptedFile "rock_diffuse.png".toList = false ∧
    acceptedFile "rock_normal.png".toList = false ∧
    (∀ es : List FPath, (∀ p ∈ es, acceptedFile p.name = false) →
      discoverDir es = []) ∧
    (∀ p : FPath, acceptedFile p.name = false → discoverFile p = []) := by
  refine ⟨?_, ?_, ?_, by decide, by decide, by decide, by decide, ?_, ?_⟩
  · intro p q
    unfold discoverFile
    cases h : acceptedFile p.name <;> simp [h]
  · intro es q
    simp [discoverDir, List.mem_filter]
  · intro name
    simp [acceptedFile, looks_like_normal_map, Bool.and_eq_true,
      decide_eq_true_iff]
  · intro es h
    unfold discoverDir
    rw [List.filter_eq_nil_iff]
    intro p hp
    simp [h p hp]
  · intro p h
    simp [discoverFile, h]

/-- Witness for C9: a directory containing only a non-matching file is
discovered as empty. -/
theorem C9_discovery_witness :
    discoverDir [⟨"", "rock_diffuse.png".toList⟩] = [] :=
  C9_discovery.2.2.2.2.2.2.2.1 [⟨"", "rock_diffuse.png".toList⟩] (by decide)

/-- C10: any filename accepted by the discovery filter, with any suffix
string inserted between stem and extension, is again accepted by the
filter — the generated output keeps a supported extension and still
contains both `"normal"` and `"map"` — so a second run over the same
directory rediscovers the outputs of the first run. -/
theorem C10_outputs_rediscovered (name sfx : List Char)
    (h : acceptedFile name = true) :
    acceptedFile (pathStem name ++ sfx ++ pathSuffix name) = true := by
  have hdotlow : Char.toLower '.' = '.' := by decide
  have h2 : lowerName (pathSuffix name) ∈ VALID_EXTS ∧
      hasSub "normal".toList (lowerName name) = true ∧
      hasSub "map".toList (lowerName name) = true := by
    simpa [acceptedFile, looks_like_normal_map, Bool.and_eq_true,
      decide_eq_true_iff] using h
  obtain ⟨hmem, hn, hm⟩ := h2
  have hsuf_ne : pathSuffix name ≠ [] := by
    intro h0
    rw [h0] at hmem
    exact absurd hmem (by decide)
  obtain ⟨s, t, hname, hstem, hsufx, hs, ht, hdot⟩ := pathSplit name hsuf_ne
  have hs2 : s ++ sfx ≠ [] := by
    intro h0
    exact hs (List.append_eq_nil.mp h0).1
  have hassoc : pathStem name ++ sfx ++ pathSuffix name =
      (s ++ sfx) ++ '.' :: t := by
    rw [hstem, hsufx, List.append_assoc]
  have hout := pathSuffix_concrete (s ++ sfx) t hs2 ht hdot
  have hext : pathSuffix (pathStem name ++ sfx ++ pathSuffix name) =
      pathSuffix name := by
    rw [hassoc, hout.1, hsufx]
  have hlowname : lowerName name = lowerName s ++ '.' :: lowerName t := by
    rw [hname]
    simp [lowerName, List.map_append, hdotlow]
  have hlowout : lowerName (pathStem name ++ sfx ++ pathSuffix name) =
      lowerName s ++ (lowerName sfx ++ '.' :: lowerName t) := by
    rw [hassoc]
    simp [lowerName, List.map_append, hdotlow]
  have hextlow : ('.' :: lowerName t) = lowerName (pathSuffix name) := by
    rw [hsufx]
    simp [lowerName, hdotlow]
  have hvalid : ∀ e ∈ VALID_EXTS, hasSub "normal".toList e = false ∧
      hasSub "map".toList e = false := by decide
  have htransfer : ∀ pat : List Char, ('.' : Char) ∉ pat →
      hasSub pat (lowerName name) = true →
      hasSub pat ('.' :: lowerName t) = false →
      hasSub pat (lowerName (pathStem name ++ sfx ++ pathSuffix name)) =
        true := by
    intro pat hpd hpat hnotext
    rw [hlowname] at hpat
    cases hasSub_of_append_cons '.' pat (lowerName s) (lowerName t) hpd hpat with
    | inl hin =>
      rw [hlowout]
      exact hasSub_append_right pat (lowerName s) _ hin
    | inr hin =>
      rw [hnotext] at hin
      exact absurd hin (by simp)
  have hno1 : hasSub "normal".toList ('.' :: lowerName t) = false := by
    rw [hextlow]
    exact (hvalid _ hmem).1
  have hno2 : hasSub "map".toList ('.' :: lowerName t) = false := by
    rw [hextlow]
    exact (hvalid _ hmem).2
  simp only [acceptedFile, looks_like_normal_map, Bool.and_eq_true,
    decide_eq_true_iff]
  refine ⟨?_, ?_, ?_⟩
  · rw [hext]
    exact hmem
  · exact htransfer "normal".toList (by decide) hn hno1
  · exact htransfer "map".toList (by decide) hm hno2

/-- Witness for C10: `rock_normal_map.png` with suffix `_DX` is accepted
again. -/
theorem C10_outputs_rediscovered_witness :
    acceptedFile "rock_normal_map.png".toList = true ∧
    acceptedFile (pathStem "rock_normal_map.png".toList ++ "_DX".toList ++
      pathSuffix "rock_normal_map.png".toList) = true :=
  ⟨by decide,
    C10_outputs_rediscovered "rock_normal_map.png".toList "_DX".toList
      (by decide)⟩
